import Mathlib

/-!
# FixionMail job orchestration and scheduled delivery: verification

Shallow embedding of the `story_jobs` / `scheduled_deliveries` tables and
the operations acting on them, translated from the SQL migrations
(`007_add_job_locking.sql`, the `story_jobs` and `scheduled_deliveries`
table migrations, the delivery-uniqueness migration) and, where the
backend worker code is not part of the sources, modelled from the
specification.

Timestamps are natural numbers (seconds); SQL `NULL` is `Option.none`;
a table is a list of rows in insertion order.
-/

namespace FixionMail

/-- A row of `public.story_jobs` (table migration: columns `id`, `job_id`,
`status`, `story_bible`, `user_email`, `settings`, `current_step`,
`progress_percent`, `result`, `story_id`, `error_message`, `created_at`,
`started_at`, `completed_at`, `retry_count`, plus `claimed_by` /
`claimed_at` added by `007_add_job_locking.sql`).  Opaque payloads
(`story_bible`, `settings`, `result`) are kept as strings. -/
structure StoryJob where
  id : Nat
  jobId : String
  status : String
  storyBible : String
  userEmail : String
  settings : Option String
  currentStep : Option String
  progressPercent : Nat
  result : Option String
  storyId : Option Nat
  errorMessage : Option String
  createdAt : Nat
  startedAt : Option Nat
  completedAt : Option Nat
  retryCount : Nat
  claimedBy : Option String
  claimedAt : Option Nat
  deriving Repr, DecidableEq

/-- The `CHECK` constraints of `story_jobs`: `status` is one of the four
legal values and `progress_percent` lies between 0 and 100 (the lower
bound is automatic for `Nat`).  `claimed_by` and `claimed_at` carry no
constraint in the schema. -/
def validStoryJob (j : StoryJob) : Bool :=
  (j.status == "pending" || j.status == "running" ||
   j.status == "completed" || j.status == "failed") &&
  j.progressPercent ≤ 100

/-- Eligibility predicate of `claim_pending_job`:
`status = 'pending' AND retry_count < 3`. -/
def eligible (j : StoryJob) : Bool :=
  j.status == "pending" && j.retryCount < 3

/-- Prefer the row with strictly smaller `created_at`; on a tie keep the
first argument (the earlier row in table order). -/
def minByCreated (a b : StoryJob) : StoryJob :=
  if a.createdAt ≤ b.createdAt then a else b

/-- `ORDER BY created_at ASC LIMIT 1`: the first row (in table order,
resolving `created_at` ties) with minimal `created_at`. -/
def argminCreated : List StoryJob → Option StoryJob
  | [] => none
  | j :: rest => some ((argminCreated rest).elim j (fun b => minByCreated j b))

/-- The inner `SELECT` of `claim_pending_job`: oldest row with
`status = 'pending' AND retry_count < 3`. -/
def selectOldest (js : List StoryJob) : Option StoryJob :=
  argminCreated (js.filter eligible)

/-- The `SET` clause of the claiming `UPDATE`: `status = 'running'`,
`claimed_by = worker_id`, `claimed_at = NOW()`, `started_at = NOW()`. -/
def applyClaim (w : String) (now : Nat) (j : StoryJob) : StoryJob :=
  { j with status := "running", claimedBy := some w,
           claimedAt := some now, startedAt := some now }

/-- The columns listed in the `RETURNING` clause of `claim_pending_job`. -/
structure ClaimResult where
  id : Nat
  jobId : String
  storyBible : String
  userEmail : String
  settings : Option String
  createdAt : Nat
  retryCount : Nat
  deriving Repr, DecidableEq

/-- Build the `RETURNING` record. The returned columns are not touched by
the `SET` clause, so reading them from the pre-update row is exact. -/
def mkClaimResult (j : StoryJob) : ClaimResult :=
  ⟨j.id, j.jobId, j.storyBible, j.userEmail, j.settings, j.createdAt, j.retryCount⟩

/-- `public.claim_pending_job(worker_id)` from `007_add_job_locking.sql`:
atomically update the oldest eligible row to `running`, claimed by
`worker_id`, and return its columns; if no eligible row exists, return
nothing and leave the table unchanged.  `FOR UPDATE SKIP LOCKED` makes
the whole statement one atomic step, so concurrent executions are
modelled as sequential ones. -/
def claim_pending_job (js : List StoryJob) (w : String) (now : Nat) :
    Option ClaimResult × List StoryJob :=
  match selectOldest js with
  | none => (none, js)
  | some j =>
    (some (mkClaimResult j),
     js.map (fun r => if r.id = j.id then applyClaim w now r else r))

/-- Run a sequence of (serialized) claim calls, collecting each result. -/
def runClaims (js : List StoryJob) : List (String × Nat) →
    List (Option ClaimResult) × List StoryJob
  | [] => ([], js)
  | (w, t) :: rest =>
    let step := claim_pending_job js w t
    let tail := runClaims step.2 rest
    (step.1 :: tail.1, tail.2)

/-- Ids of the successful results among a list of claim outcomes. -/
def claimedIds (rs : List (Option ClaimResult)) : List Nat :=
  rs.filterMap (fun o => o.map ClaimResult.id)

/-! ## Basic lemmas about the claim primitive -/

theorem minByCreated_cases (a b : StoryJob) :
    minByCreated a b = a ∨ minByCreated a b = b := by
  unfold minByCreated
  split <;> simp

theorem minByCreated_le_left (a b : StoryJob) :
    (minByCreated a b).createdAt ≤ a.createdAt := by
  unfold minByCreated
  split
  · exact Nat.le_refl _
  · exact Nat.le_of_lt (Nat.lt_of_not_le (by assumption))

theorem minByCreated_le_right (a b : StoryJob) :
    (minByCreated a b).createdAt ≤ b.createdAt := by
  unfold minByCreated
  split
  · assumption
  · exact Nat.le_refl _

theorem argminCreated_eq_none {l : List StoryJob} :
    argminCreated l = none ↔ l = [] := by
  cases l with
  | nil => simp [argminCreated]
  | cons a rest => simp [argminCreated]

theorem argminCreated_mem {l : List StoryJob} {j : StoryJob}
    (h : argminCreated l = some j) : j ∈ l := by
  induction l generalizing j with
  | nil => simp [argminCreated] at h
  | cons a rest ih =>
    simp only [argminCreated] at h
    obtain rfl := (Option.some.inj h).symm
    cases hrest : argminCreated rest with
    | none => simp [hrest]
    | some b =>
      simp only [Option.elim_some]
      rcases minByCreated_cases a b with hc | hc
      · rw [hc]; exact List.mem_cons_self _ _
      · rw [hc]; exact List.mem_cons_of_mem _ (ih hrest)

theorem argminCreated_min {l : List StoryJob} {j : StoryJob}
    (h : argminCreated l = some j) :
    ∀ x ∈ l, j.createdAt ≤ x.createdAt := by
  induction l generalizing j with
  | nil => simp [argminCreated] at h
  | cons a rest ih =>
    simp only [argminCreated] at h
    obtain rfl := (Option.some.inj h).symm
    intro x hx
    cases hrest : argminCreated rest with
    | none =>
      have hnil : rest = [] := argminCreated_eq_none.mp hrest
      subst hnil
      simp at hx
      subst hx
      simp [hrest]
    | some b =>
      simp only [Option.elim_some]
      have hb := ih hrest
      rcases List.mem_cons.mp hx with rfl | hx'
      · exact minByCreated_le_left x b
      · exact Nat.le_trans (minByCreated_le_right a b) (hb x hx')

theorem selectOldest_eligible {js : List StoryJob} {j : StoryJob}
    (h : selectOldest js = some j) : j ∈ js ∧ eligible j = true := by
  have hm := argminCreated_mem h
  exact ⟨(List.mem_filter.mp hm).1, (List.mem_filter.mp hm).2⟩

theorem selectOldest_min {js : List StoryJob} {j : StoryJob}
    (h : selectOldest js = some j) :
    ∀ x ∈ js, eligible x = true → j.createdAt ≤ x.createdAt := by
  intro x hx he
  exact argminCreated_min h x (List.mem_filter.mpr ⟨hx, he⟩)

theorem selectOldest_none {js : List StoryJob}
    (h : ∀ x ∈ js, eligible x = false) : selectOldest js = none := by
  unfold selectOldest
  rw [argminCreated_eq_none]
  rw [List.filter_eq_nil_iff]
  intro a ha
  simp [h a ha]

theorem eligible_fields {j : StoryJob} (h : eligible j = true) :
    j.status = "pending" ∧ j.retryCount < 3 := by
  unfold eligible at h
  simp only [Bool.and_eq_true, beq_iff_eq, decide_eq_true_eq] at h
  exact h

/-- Claiming permutes no rows and changes no ids. -/
theorem claim_ids_eq (js : List StoryJob) (w : String) (now : Nat) :
    ((claim_pending_job js w now).2).map StoryJob.id = js.map StoryJob.id := by
  unfold claim_pending_job
  cases hsel : selectOldest js with
  | none => rfl
  | some j =>
    simp only [List.map_map]
    apply List.map_congr_left
    intro r _
    by_cases hid : r.id = j.id <;> simp [hid, applyClaim]

/-- Every row carrying the id of a job is `running`. -/
def AllRunning (i : Nat) (js : List StoryJob) : Prop :=
  ∀ r ∈ js, r.id = i → r.status = "running"

/-- After a successful claim, the claimed id maps only to `running` rows. -/
theorem claim_success_running {js js' : List StoryJob} {w : String} {now : Nat}
    {res : ClaimResult}
    (h : claim_pending_job js w now = (some res, js')) :
    AllRunning res.id js' := by
  unfold claim_pending_job at h
  cases hsel : selectOldest js with
  | none => rw [hsel] at h; exact absurd (congrArg Prod.fst h) (by simp)
  | some j =>
    rw [hsel] at h
    obtain ⟨h1, h2⟩ := Prod.mk.injEq .. ▸ h
    have hres : res = mkClaimResult j := (Option.some.inj h1).symm
    intro r hr hid
    subst h2
    obtain ⟨r0, hr0, hfr⟩ := List.mem_map.mp hr
    by_cases h0 : r0.id = j.id
    · rw [if_pos h0] at hfr
      subst hfr
      rfl
    · rw [if_neg h0] at hfr
      subst hfr
      exact absurd (hid.trans (by rw [hres]; rfl)) h0

/-- A claim neither returns an id whose rows are all `running`, nor
changes that fact. -/
theorem claim_preserves_AllRunning {i : Nat} {js : List StoryJob}
    (h : AllRunning i js) (w : String) (now : Nat) :
    (∀ res, (claim_pending_job js w now).1 = some res → res.id ≠ i) ∧
    AllRunning i (claim_pending_job js w now).2 := by
  unfold claim_pending_job
  cases hsel : selectOldest js with
  | none => exact ⟨fun res hres => by simp at hres, h⟩
  | some j =>
    obtain ⟨hmem, helig⟩ := selectOldest_eligible hsel
    have hpend := (eligible_fields helig).1
    constructor
    · intro res hres hi
      have : res = mkClaimResult j := (Option.some.inj hres).symm
      have hij : j.id = i := by rw [← hi, this]; rfl
      have := h j hmem hij
      rw [hpend] at this
      exact absurd this (by decide)
    · intro r hr hid
      obtain ⟨r0, hr0, hfr⟩ := List.mem_map.mp hr
      by_cases h0 : r0.id = j.id
      · rw [if_pos h0] at hfr; subst hfr; rfl
      · rw [if_neg h0] at hfr; subst hfr; exact h r0 hr0 hid

theorem runClaims_not_claimed {i : Nat} {js : List StoryJob}
    (h : AllRunning i js) (calls : List (String × Nat)) :
    i ∉ claimedIds (runClaims js calls).1 := by
  induction calls generalizing js with
  | nil => simp [runClaims, claimedIds]
  | cons c rest ih =>
    obtain ⟨w, t⟩ := c
    obtain ⟨hno, hpres⟩ := claim_preserves_AllRunning h w t
    simp only [runClaims, claimedIds, List.filterMap_cons]
    cases hres : (claim_pending_job js w t).1 with
    | none => exact ih hpres
    | some res =>
      intro hmem
      simp only [Option.map_some', List.mem_cons] at hmem
      rcases hmem with heq | hmem'
      · exact hno res hres heq.symm
      · exact ih hpres hmem'

/-! ## Concrete rows used to instantiate hypotheses -/

/-- A fresh pending job, `created_at = 10`. -/
def jobA : StoryJob :=
  { id := 1, jobId := "job-a", status := "pending", storyBible := "bible-a",
    userEmail := "a@example.com", settings := none, currentStep := none,
    progressPercent := 0, result := none, storyId := none,
    errorMessage := none, createdAt := 10, startedAt := none,
    completedAt := none, retryCount := 0, claimedBy := none, claimedAt := none }

/-- An older pending job, `created_at = 5`. -/
def jobB : StoryJob :=
  { jobA with id := 2, jobId := "job-b", createdAt := 5 }

/-- A pending job whose `retry_count` has reached the limit 3. -/
def jobExhausted : StoryJob :=
  { jobA with id := 4, jobId := "job-d", retryCount := 3 }

/-! ## Claim theorems about the claim primitive -/

/-- C1: for any set of concurrent calls to `claim_pending_job` — serialized
by `FOR UPDATE SKIP LOCKED`, so modelled as an arbitrary sequence of atomic
executions from an arbitrary table — no two callers ever receive the same
job: the ids of the successfully claimed jobs are pairwise distinct. -/
theorem claim_pending_job_at_most_one_claim (js : List StoryJob)
    (calls : List (String × Nat)) :
    (claimedIds (runClaims js calls).1).Nodup := by
  induction calls generalizing js with
  | nil => simp [runClaims, claimedIds]
  | cons c rest ih =>
    obtain ⟨w, t⟩ := c
    simp only [runClaims, claimedIds, List.filterMap_cons]
    cases hres : (claim_pending_job js w t).1 with
    | none => exact ih _
    | some res =>
      simp only [Option.map_some']
      refine List.nodup_cons.mpr ⟨?_, ih _⟩
      have heq : claim_pending_job js w t =
          (some res, (claim_pending_job js w t).2) := by rw [← hres]
      exact runClaims_not_claimed (claim_success_running heq) rest

/-- C2: when an eligible job exists (`status = 'pending'`,
`retry_count < 3`), `claim_pending_job` claims an eligible job whose
`created_at` is least among all eligible jobs, atomically sets its status
to `running`, `claimed_by` to the worker, `claimed_at` and `started_at`
to the current time, returns that job's columns, and leaves every other
row unchanged. -/
theorem claim_pending_job_claims_oldest (js : List StoryJob) (w : String)
    (now : Nat) (h : ∃ j ∈ js, eligible j = true) :
    ∃ j ∈ js, eligible j = true ∧
      (∀ x ∈ js, eligible x = true → j.createdAt ≤ x.createdAt) ∧
      (claim_pending_job js w now).1 = some (mkClaimResult j) ∧
      (∀ r ∈ (claim_pending_job js w now).2, r.id = j.id →
        r.status = "running" ∧ r.claimedBy = some w ∧
        r.claimedAt = some now ∧ r.startedAt = some now) ∧
      (∀ r ∈ (claim_pending_job js w now).2, r.id ≠ j.id → r ∈ js) := by
  cases hsel : selectOldest js with
  | none =>
    exfalso
    obtain ⟨x, hx, he⟩ := h
    have : x ∈ js.filter eligible := List.mem_filter.mpr ⟨hx, he⟩
    rw [argminCreated_eq_none.mp hsel] at this
    exact absurd this (List.not_mem_nil x)
  | some j =>
    obtain ⟨hmem, helig⟩ := selectOldest_eligible hsel
    refine ⟨j, hmem, helig, selectOldest_min hsel, ?_, ?_, ?_⟩
    · unfold claim_pending_job
      rw [hsel]
    · intro r hr hid
      unfold claim_pending_job at hr
      rw [hsel] at hr
      obtain ⟨r0, hr0, hfr⟩ := List.mem_map.mp hr
      by_cases h0 : r0.id = j.id
      · rw [if_pos h0] at hfr
        subst hfr
        exact ⟨rfl, rfl, rfl, rfl⟩
      · rw [if_neg h0] at hfr
        subst hfr
        exact absurd hid h0
    · intro r hr hid
      unfold claim_pending_job at hr
      rw [hsel] at hr
      obtain ⟨r0, hr0, hfr⟩ := List.mem_map.mp hr
      by_cases h0 : r0.id = j.id
      · rw [if_pos h0] at hfr
        subst hfr
        exact absurd h0 hid
      · rw [if_neg h0] at hfr
        subst hfr
        exact hr0

/-- Witness for C2: two pending jobs, the older one (`jobB`,
`created_at = 5`) is claimed with all fields set. -/
theorem claim_pending_job_claims_oldest_witness :
    (∃ j ∈ [jobA, jobB], eligible j = true) ∧
    (∃ j ∈ [jobA, jobB], eligible j = true ∧
      (∀ x ∈ [jobA, jobB], eligible x = true → j.createdAt ≤ x.createdAt) ∧
      (claim_pending_job [jobA, jobB] "worker-1" 100).1 = some (mkClaimResult j) ∧
      (∀ r ∈ (claim_pending_job [jobA, jobB] "worker-1" 100).2, r.id = j.id →
        r.status = "running" ∧ r.claimedBy = some "worker-1" ∧
        r.claimedAt = some 100 ∧ r.startedAt = some 100) ∧
      (∀ r ∈ (claim_pending_job [jobA, jobB] "worker-1" 100).2,
        r.id ≠ j.id → r ∈ [jobA, jobB])) :=
  ⟨⟨jobA, by decide, by decide⟩,
   claim_pending_job_claims_oldest [jobA, jobB] "worker-1" 100
     ⟨jobA, by decide, by decide⟩⟩

/-- C6: when no row is eligible (`status = 'pending'` and
`retry_count < 3`), `claim_pending_job` returns no job and leaves the
table exactly as it was, raising no error. -/
theorem claim_pending_job_empty_result (js : List StoryJob) (w : String)
    (now : Nat) (h : ∀ j ∈ js, eligible j = false) :
    claim_pending_job js w now = (none, js) := by
  unfold claim_pending_job
  rw [selectOldest_none h]

/-- Witness for C6: a table holding only a retry-exhausted pending job
yields no claim and is unchanged. -/
theorem claim_pending_job_empty_result_witness :
    (∀ j ∈ [jobExhausted], eligible j = false) ∧
    claim_pending_job [jobExhausted] "worker-2" 50 = (none, [jobExhausted]) :=
  ⟨by decide,
   claim_pending_job_empty_result [jobExhausted] "worker-2" 50 (by decide)⟩

/-! ## The job store as a state machine

`claim_pending_job` is from the source; the worker-side transitions
(failure handling, completion, the stale-claim reaper) are backend
processes whose code is not part of the sources and are modelled from the
specification. -/

/-- A freshly inserted `story_jobs` row: the schema defaults
(`status = 'pending'`, `retry_count = 0`, claim fields `NULL`). -/
def newStoryJob (i : Nat) (jid bible email : String)
    (settings : Option String) (t : Nat) : StoryJob :=
  { id := i, jobId := jid, status := "pending", storyBible := bible,
    userEmail := email, settings := settings, currentStep := none,
    progressPercent := 0, result := none, storyId := none,
    errorMessage := none, createdAt := t, startedAt := none,
    completedAt := none, retryCount := 0, claimedBy := none, claimedAt := none }

/-- Modelled from the spec: retryable-failure handling by the generation
worker (the backend worker code is not under the sources): increment
`retryCount`; if still below the limit 3 (the constant used by
`claim_pending_job`), return the job to `Pending` with the claim fields
cleared; otherwise mark it permanently `Failed`; record the error. -/
def retryFailBody (msg : String) (r : StoryJob) : StoryJob :=
  if r.retryCount + 1 < 3 then
    { r with status := "pending", retryCount := r.retryCount + 1,
             claimedBy := none, claimedAt := none, errorMessage := some msg }
  else
    { r with status := "failed", retryCount := r.retryCount + 1,
             claimedBy := none, claimedAt := none, errorMessage := some msg }

/-- Modelled from the spec: a worker reporting a retryable failure of the
running job with the given id. -/
def failTransform (i : Nat) (msg : String) (r : StoryJob) : StoryJob :=
  if r.id = i ∧ r.status = "running" then retryFailBody msg r else r

/-- Modelled from the spec: a worker completing the running job with the
given id, recording the produced story and clearing the claim. -/
def completeTransform (i t sid : Nat) (r : StoryJob) : StoryJob :=
  if r.id = i ∧ r.status = "running" then
    { r with status := "completed", completedAt := some t,
             storyId := some sid, claimedBy := none, claimedAt := none }
  else r

/-- Modelled from the spec: the stale-claim reaper at time `t` treats every
running job whose `claimedAt` is older than the timeout as a retryable
failure. -/
def reapTransform (t timeout : Nat) (r : StoryJob) : StoryJob :=
  if r.status = "running" ∧ r.claimedAt.getD t + timeout < t then
    retryFailBody "stale claim reclaimed" r
  else r

/-- The operations that touch the `story_jobs` table. -/
inductive JobOp where
  | insert (i : Nat) (jid bible email : String)
      (settings : Option String) (t : Nat)
  | claim (w : String) (t : Nat)
  | fail (i : Nat) (msg : String)
  | complete (i t sid : Nat)
  | reap (t timeout : Nat)

/-- One operation against the table.  An insert is refused by the primary
key on `id` and the unique constraint on `job_id` when a matching row
already exists. -/
def jobStep (js : List StoryJob) : JobOp → Option ClaimResult × List StoryJob
  | .insert i jid bible email settings t =>
    if js.any (fun r => r.id == i || r.jobId == jid) then (none, js)
    else (none, js ++ [newStoryJob i jid bible email settings t])
  | .claim w t => claim_pending_job js w t
  | .fail i msg => (none, js.map (failTransform i msg))
  | .complete i t sid => (none, js.map (completeTransform i t sid))
  | .reap t timeout => (none, js.map (reapTransform t timeout))

/-- Run a sequence of operations. -/
def execJobOps (js : List StoryJob) : List JobOp → List StoryJob
  | [] => js
  | op :: rest => execJobOps (jobStep js op).2 rest

/-- The results handed to workers by the claim calls of a run. -/
def claimOutputs (js : List StoryJob) : List JobOp → List ClaimResult
  | [] => []
  | op :: rest =>
    ((jobStep js op).1).toList ++ claimOutputs (jobStep js op).2 rest

/-! ## Retry-bound invariant (C4) -/

/-- Per-row retry facts: the count never passes 3, running rows are below
the limit, and a row that reached the limit is failed. -/
def JobRowInv (j : StoryJob) : Prop :=
  j.retryCount ≤ 3 ∧ (j.status = "running" → j.retryCount < 3) ∧
  (j.retryCount = 3 → j.status = "failed")

/-- Store-wide invariant: primary-key uniqueness plus the per-row facts. -/
def RetryInv (js : List StoryJob) : Prop :=
  (js.map StoryJob.id).Nodup ∧ ∀ j ∈ js, JobRowInv j

theorem retryFailBody_id (msg : String) (r : StoryJob) :
    (retryFailBody msg r).id = r.id := by
  unfold retryFailBody
  split <;> rfl

theorem failTransform_id (i : Nat) (msg : String) (r : StoryJob) :
    (failTransform i msg r).id = r.id := by
  unfold failTransform
  split
  · exact retryFailBody_id msg r
  · rfl

theorem completeTransform_id (i t sid : Nat) (r : StoryJob) :
    (completeTransform i t sid r).id = r.id := by
  unfold completeTransform
  split <;> rfl

theorem reapTransform_id (t timeout : Nat) (r : StoryJob) :
    (reapTransform t timeout r).id = r.id := by
  unfold reapTransform
  split
  · exact retryFailBody_id _ r
  · rfl

theorem retryFailBody_inv {r : StoryJob} (msg : String)
    (h : r.retryCount < 3) : JobRowInv (retryFailBody msg r) := by
  unfold retryFailBody
  by_cases hlt : r.retryCount + 1 < 3
  · rw [if_pos hlt]
    exact ⟨Nat.le_of_lt hlt, fun _ => hlt, fun h3 => absurd h3 (Nat.ne_of_lt hlt)⟩
  · rw [if_neg hlt]
    have h3 : r.retryCount + 1 = 3 := by omega
    refine ⟨Nat.le_of_eq h3, ?_, fun _ => rfl⟩
    intro hs
    have hs' : ("failed" : String) = "running" := hs
    exact absurd hs' (by decide)

theorem failTransform_inv (i : Nat) (msg : String) {r : StoryJob}
    (h : JobRowInv r) : JobRowInv (failTransform i msg r) := by
  unfold failTransform
  by_cases hc : r.id = i ∧ r.status = "running"
  · rw [if_pos hc]
    exact retryFailBody_inv msg (h.2.1 hc.2)
  · rw [if_neg hc]
    exact h

theorem completeTransform_inv (i t sid : Nat) {r : StoryJob}
    (h : JobRowInv r) : JobRowInv (completeTransform i t sid r) := by
  unfold completeTransform
  by_cases hc : r.id = i ∧ r.status = "running"
  · rw [if_pos hc]
    have hrc : r.retryCount < 3 := h.2.1 hc.2
    exact ⟨Nat.le_of_lt hrc, fun _ => hrc, fun h3 => absurd h3 (Nat.ne_of_lt hrc)⟩
  · rw [if_neg hc]
    exact h

theorem reapTransform_inv (t timeout : Nat) {r : StoryJob}
    (h : JobRowInv r) : JobRowInv (reapTransform t timeout r) := by
  unfold reapTransform
  by_cases hc : r.status = "running" ∧ r.claimedAt.getD t + timeout < t
  · rw [if_pos hc]
    exact retryFailBody_inv _ (h.2.1 hc.1)
  · rw [if_neg hc]
    exact h

theorem claim_rows_inv (js : List StoryJob) (w : String) (t : Nat)
    (hnd : (js.map StoryJob.id).Nodup) (hrow : ∀ j ∈ js, JobRowInv j) :
    ∀ r ∈ (claim_pending_job js w t).2, JobRowInv r := by
  unfold claim_pending_job
  cases hsel : selectOldest js with
  | none => exact hrow
  | some j =>
    obtain ⟨hmem, helig⟩ := selectOldest_eligible hsel
    intro r hr
    obtain ⟨r0, hr0, hfr⟩ := List.mem_map.mp hr
    by_cases h0 : r0.id = j.id
    · have hr0j : r0 = j := List.inj_on_of_nodup_map hnd hr0 hmem h0
      rw [if_pos h0] at hfr
      subst hfr
      subst hr0j
      have hrc := (eligible_fields helig).2
      exact ⟨Nat.le_of_lt hrc, fun _ => hrc, fun h3 => absurd h3 (Nat.ne_of_lt hrc)⟩
    · rw [if_neg h0] at hfr
      subst hfr
      exact hrow r0 hr0

theorem map_id_of_preserves (f : StoryJob → StoryJob)
    (hf : ∀ r, (f r).id = r.id) (js : List StoryJob) :
    (js.map f).map StoryJob.id = js.map StoryJob.id := by
  rw [List.map_map]
  exact List.map_congr_left (fun r _ => hf r)

theorem jobStep_RetryInv (js : List StoryJob) (op : JobOp)
    (h : RetryInv js) : RetryInv (jobStep js op).2 := by
  obtain ⟨hnd, hrow⟩ := h
  cases op with
  | insert i jid bible email settings t =>
    simp only [jobStep]
    by_cases hg : (js.any fun r => r.id == i || r.jobId == jid) = true
    · rw [if_pos hg]
      exact ⟨hnd, hrow⟩
    · rw [if_neg hg]
      have hno : ∀ r ∈ js, r.id ≠ i := by
        intro r hr hri
        apply hg
        rw [List.any_eq_true]
        exact ⟨r, hr, by simp [hri]⟩
      constructor
      · rw [List.map_append, List.nodup_append]
        refine ⟨hnd, List.nodup_singleton _, ?_⟩
        intro a ha hb
        obtain ⟨r, hr, hid⟩ := List.mem_map.mp ha
        simp only [List.map_cons, List.map_nil, List.mem_singleton] at hb
        exact hno r hr (hid.trans hb)
      · intro j hj
        rcases List.mem_append.mp hj with h1 | h2
        · exact hrow j h1
        · rw [List.mem_singleton] at h2
          subst h2
          refine ⟨Nat.zero_le 3, ?_, ?_⟩
          · intro hs
            have hs' : ("pending" : String) = "running" := hs
            exact absurd hs' (by decide)
          · intro h3
            have h3' : (0 : Nat) = 3 := h3
            exact absurd h3' (by decide)
  | claim w t =>
    constructor
    · show ((claim_pending_job js w t).2.map StoryJob.id).Nodup
      rw [claim_ids_eq js w t]
      exact hnd
    · exact claim_rows_inv js w t hnd hrow
  | fail i msg =>
    constructor
    · show ((js.map (failTransform i msg)).map StoryJob.id).Nodup
      rw [map_id_of_preserves _ (failTransform_id i msg) js]
      exact hnd
    · intro r hr
      obtain ⟨r0, hr0, hfr⟩ := List.mem_map.mp hr
      rw [← hfr]
      exact failTransform_inv i msg (hrow r0 hr0)
  | complete i t sid =>
    constructor
    · show ((js.map (completeTransform i t sid)).map StoryJob.id).Nodup
      rw [map_id_of_preserves _ (completeTransform_id i t sid) js]
      exact hnd
    · intro r hr
      obtain ⟨r0, hr0, hfr⟩ := List.mem_map.mp hr
      rw [← hfr]
      exact completeTransform_inv i t sid (hrow r0 hr0)
  | reap t timeout =>
    constructor
    · show ((js.map (reapTransform t timeout)).map StoryJob.id).Nodup
      rw [map_id_of_preserves _ (reapTransform_id t timeout) js]
      exact hnd
    · intro r hr
      obtain ⟨r0, hr0, hfr⟩ := List.mem_map.mp hr
      rw [← hfr]
      exact reapTransform_inv t timeout (hrow r0 hr0)

theorem execJobOps_RetryInv (js : List StoryJob) (ops : List JobOp)
    (h : RetryInv js) : RetryInv (execJobOps js ops) := by
  induction ops generalizing js with
  | nil => exact h
  | cons op rest ih => exact ih _ (jobStep_RetryInv js op h)

/-- The id `i` belongs to some row and every row carrying it is failed. -/
def FailedForever (i : Nat) (js : List StoryJob) : Prop :=
  (∃ r ∈ js, r.id = i) ∧ ∀ r ∈ js, r.id = i → r.status = "failed"

theorem failTransform_fix (i : Nat) (msg : String) (r : StoryJob)
    (h : r.status = "failed") : failTransform i msg r = r := by
  unfold failTransform
  rw [if_neg]
  intro hc
  exact absurd (h.symm.trans hc.2) (by decide)

theorem completeTransform_fix (i t sid : Nat) (r : StoryJob)
    (h : r.status = "failed") : completeTransform i t sid r = r := by
  unfold completeTransform
  rw [if_neg]
  intro hc
  exact absurd (h.symm.trans hc.2) (by decide)

theorem reapTransform_fix (t timeout : Nat) (r : StoryJob)
    (h : r.status = "failed") : reapTransform t timeout r = r := by
  unfold reapTransform
  rw [if_neg]
  intro hc
  exact absurd (h.symm.trans hc.1) (by decide)

theorem map_FailedForever {i : Nat} {js : List StoryJob}
    (f : StoryJob → StoryJob) (hid : ∀ r, (f r).id = r.id)
    (hfix : ∀ r, r.status = "failed" → f r = r)
    (h : FailedForever i js) : FailedForever i (js.map f) := by
  obtain ⟨⟨rx, hrx, hrxi⟩, hall⟩ := h
  constructor
  · exact ⟨rx, List.mem_map.mpr ⟨rx, hrx, hfix rx (hall rx hrx hrxi)⟩, hrxi⟩
  · intro r hr hri
    obtain ⟨r0, hr0, hfr⟩ := List.mem_map.mp hr
    have hr0i : r0.id = i := by rw [← hri, ← hfr, hid r0]
    have hr0f := hall r0 hr0 hr0i
    rw [← hfr, hfix r0 hr0f]
    exact hr0f

theorem jobStep_FailedForever {i : Nat} {js : List StoryJob}
    (h : FailedForever i js) (op : JobOp) :
    FailedForever i (jobStep js op).2 ∧
    ∀ res, (jobStep js op).1 = some res → res.id ≠ i := by
  obtain ⟨⟨rx, hrx, hrxi⟩, hall⟩ := h
  cases op with
  | insert i' jid bible email settings t =>
    simp only [jobStep]
    by_cases hg : (js.any fun r => r.id == i' || r.jobId == jid) = true
    · rw [if_pos hg]
      exact ⟨⟨⟨rx, hrx, hrxi⟩, hall⟩, fun res hres => by simp at hres⟩
    · rw [if_neg hg]
      have hne : i' ≠ i := by
        intro he
        apply hg
        rw [List.any_eq_true]
        exact ⟨rx, hrx, by simp [hrxi, he]⟩
      refine ⟨⟨⟨rx, List.mem_append_left _ hrx, hrxi⟩, ?_⟩,
              fun res hres => by simp at hres⟩
      intro r hr hri
      rcases List.mem_append.mp hr with h1 | h2
      · exact hall r h1 hri
      · rw [List.mem_singleton] at h2
        subst h2
        exact absurd hri hne
  | claim w t =>
    show FailedForever i (claim_pending_job js w t).2 ∧
      ∀ res, (claim_pending_job js w t).1 = some res → res.id ≠ i
    unfold claim_pending_job
    cases hsel : selectOldest js with
    | none =>
      exact ⟨⟨⟨rx, hrx, hrxi⟩, hall⟩, fun res hres => by simp at hres⟩
    | some j =>
      obtain ⟨hmem, helig⟩ := selectOldest_eligible hsel
      have hji : j.id ≠ i := by
        intro he
        have hf := hall j hmem he
        have hp := (eligible_fields helig).1
        exact absurd (hp.symm.trans hf) (by decide)
      have hrxne : rx.id ≠ j.id := by
        rw [hrxi]
        exact fun he => hji he.symm
      refine ⟨⟨⟨rx, List.mem_map.mpr ⟨rx, hrx, by rw [if_neg hrxne]⟩, hrxi⟩, ?_⟩, ?_⟩
      · intro r hr hri
        obtain ⟨r0, hr0, hfr⟩ := List.mem_map.mp hr
        by_cases h0 : r0.id = j.id
        · rw [if_pos h0] at hfr
          subst hfr
          exact absurd (h0.symm.trans hri) hji
        · rw [if_neg h0] at hfr
          subst hfr
          exact hall r0 hr0 hri
      · intro res hres
        have hres' : res = mkClaimResult j := (Option.some.inj hres).symm
        rw [hres']
        exact hji
  | fail i' msg =>
    exact ⟨map_FailedForever _ (failTransform_id i' msg)
             (failTransform_fix i' msg) ⟨⟨rx, hrx, hrxi⟩, hall⟩,
           fun res hres => by simp [jobStep] at hres⟩
  | complete i' t sid =>
    exact ⟨map_FailedForever _ (completeTransform_id i' t sid)
             (completeTransform_fix i' t sid) ⟨⟨rx, hrx, hrxi⟩, hall⟩,
           fun res hres => by simp [jobStep] at hres⟩
  | reap t timeout =>
    exact ⟨map_FailedForever _ (reapTransform_id t timeout)
             (reapTransform_fix t timeout) ⟨⟨rx, hrx, hrxi⟩, hall⟩,
           fun res hres => by simp [jobStep] at hres⟩

theorem execJobOps_FailedForever {i : Nat} {js : List StoryJob}
    (h : FailedForever i js) (ops : List JobOp) :
    FailedForever i (execJobOps js ops) ∧
    ∀ res ∈ claimOutputs js ops, res.id ≠ i := by
  induction ops generalizing js with
  | nil => exact ⟨h, by simp [claimOutputs]⟩
  | cons op rest ih =>
    obtain ⟨h1, h2⟩ := jobStep_FailedForever h op
    obtain ⟨h3, h4⟩ := ih h1
    refine ⟨h3, ?_⟩
    intro res hres
    simp only [claimOutputs, List.mem_append] at hres
    rcases hres with hl | hr
    · cases ho : (jobStep js op).1 with
      | none => rw [ho] at hl; simp at hl
      | some r =>
        rw [ho] at hl
        simp at hl
        subst hl
        exact h2 res ho
    · exact h4 res hr

theorem jobStep_output_rc {js : List StoryJob} {op : JobOp}
    {res : ClaimResult} (h : (jobStep js op).1 = some res) :
    res.retryCount < 3 := by
  cases op with
  | insert i jid bible email settings t =>
    simp only [jobStep] at h
    split at h <;> simp at h
  | claim w t =>
    have h' : (claim_pending_job js w t).1 = some res := h
    unfold claim_pending_job at h'
    cases hsel : selectOldest js with
    | none => rw [hsel] at h'; simp at h'
    | some j =>
      rw [hsel] at h'
      simp only at h'
      obtain rfl := (Option.some.inj h').symm
      exact (eligible_fields (selectOldest_eligible hsel).2).2
  | fail i msg => simp [jobStep] at h
  | complete i t sid => simp [jobStep] at h
  | reap t timeout => simp [jobStep] at h

theorem claimOutputs_rc (js : List StoryJob) (ops : List JobOp) :
    ∀ res ∈ claimOutputs js ops, res.retryCount < 3 := by
  induction ops generalizing js with
  | nil => simp [claimOutputs]
  | cons op rest ih =>
    intro res hres
    simp only [claimOutputs, List.mem_append] at hres
    rcases hres with hl | hr
    · cases ho : (jobStep js op).1 with
      | none => rw [ho] at hl; simp at hl
      | some r =>
        rw [ho] at hl
        simp at hl
        subst hl
        exact jobStep_output_rc ho
    · exact ih _ res hr

/-- C4: over any sequence of store operations from a state satisfying the
store invariant, `retry_count` never exceeds 3 (the retry limit
`claim_pending_job` fixes for every job), every claim result carries
`retry_count < 3`, and any job whose `retry_count` has reached 3 is
`failed`, remains `failed` forever, and is never again returned by the
claim primitive. -/
theorem story_jobs_retry_bound (js : List StoryJob) (ops : List JobOp)
    (h : RetryInv js) :
    (∀ j ∈ execJobOps js ops, j.retryCount ≤ 3) ∧
    (∀ res ∈ claimOutputs js ops, res.retryCount < 3) ∧
    (∀ j ∈ js, j.retryCount = 3 →
      (∀ r ∈ execJobOps js ops, r.id = j.id → r.status = "failed") ∧
      (∀ res ∈ claimOutputs js ops, res.id ≠ j.id)) := by
  refine ⟨fun j hj => ((execJobOps_RetryInv js ops h).2 j hj).1,
          claimOutputs_rc js ops, ?_⟩
  intro j hj h3
  have hfail : j.status = "failed" := (h.2 j hj).2.2 h3
  have hFF : FailedForever j.id js := by
    refine ⟨⟨j, hj, rfl⟩, ?_⟩
    intro r hr hri
    have hrj : r = j := List.inj_on_of_nodup_map h.1 hr hj hri
    rw [hrj]
    exact hfail
  obtain ⟨hFF', hout⟩ := execJobOps_FailedForever hFF ops
  exact ⟨hFF'.2, hout⟩

/-- The scenario of the spec: a job fails three times with retryable
errors; afterwards it is `failed` with `retry_count = 3`. -/
def retryScenario : List JobOp :=
  [JobOp.insert 1 "job-r" "bible" "r@example.com" none 0,
   JobOp.claim "w1" 1, JobOp.fail 1 "timeout-1",
   JobOp.claim "w2" 2, JobOp.fail 1 "timeout-2",
   JobOp.claim "w3" 3, JobOp.fail 1 "timeout-3",
   JobOp.claim "w4" 4]

/-- Witness for C4: the empty table satisfies the invariant and the
retry-scenario run keeps every bound. -/
theorem story_jobs_retry_bound_witness :
    RetryInv [] ∧
    ((∀ j ∈ execJobOps [] retryScenario, j.retryCount ≤ 3) ∧
     (∀ res ∈ claimOutputs [] retryScenario, res.retryCount < 3) ∧
     (∀ j ∈ ([] : List StoryJob), j.retryCount = 3 →
       (∀ r ∈ execJobOps [] retryScenario, r.id = j.id → r.status = "failed") ∧
       (∀ res ∈ claimOutputs [] retryScenario, res.id ≠ j.id))) :=
  ⟨⟨List.nodup_nil, by simp⟩,
   story_jobs_retry_bound [] retryScenario ⟨List.nodup_nil, by simp⟩⟩

/-! ## Backoff (C7) -/

/-- Modelled from the spec: the fixed retry backoff schedule indexed by
`retryCount` (30 s, 2 min, 10 min). -/
def backoffSchedule : List Nat := [30, 120, 600]

/-- Modelled from the spec: the `notBefore` timestamp a job would carry
after its `retryCount`-th retryable failure at time `failAt`: the failure
time plus the backoff delay indexed by the retry count. -/
def specNotBefore (failAt rc : Nat) : Nat :=
  failAt + backoffSchedule.getD (rc - 1) 600

/-- A job is inserted at time 0, claimed, and reports a retryable failure
at time 5; a second claim is issued at that same time 5. -/
def backoffScenario : List JobOp :=
  [JobOp.insert 1 "job-bo" "bible" "bo@example.com" none 0,
   JobOp.claim "w1" 2, JobOp.fail 1 "timeout",
   JobOp.claim "w2" 5]

/-- Counterexample to C7: `story_jobs` rows carry no `notBefore`, and the
claim predicate of `claim_pending_job` checks only
`status = 'pending' AND retry_count < 3`.  A job that failed retryably at
time 5 (its spec-mandated `notBefore` being 5 + 30 = 35) is nevertheless
returned by a claim issued at time 5 < 35, with `retry_count = 1`. -/
theorem claim_ignores_backoff_counterexample :
    (claimOutputs [] backoffScenario).map ClaimResult.id = [1, 1] ∧
    (claimOutputs [] backoffScenario).map ClaimResult.retryCount = [0, 1] ∧
    specNotBefore 5 1 = 35 ∧ 5 < 35 := by
  refine ⟨by decide, by decide, by decide, by decide⟩

/-- C7 amended: after a retryable failure the job is returned to
`pending` with no stored `notBefore`; the selection of
`claim_pending_job` depends only on `status` and `retry_count` — it is
independent of the calling time (and worker) — so a retried job is
immediately claim-eligible with no backoff delay enforced by the claim
primitive. -/
theorem claim_selection_time_independent (js : List StoryJob)
    (w w' : String) (t t' : Nat) :
    (claim_pending_job js w t).1 = (claim_pending_job js w' t').1 := by
  unfold claim_pending_job
  cases selectOldest js <;> rfl

/-! ## Claim-field / status coupling (C5) -/

/-- Invariant 1 of the spec's data model, as a decidable row predicate:
`status = Running ⇒ claimedBy ≠ null ∧ claimedAt ≠ null` and
`status ∈ {Pending, Completed, Failed} ⇒ claimedBy = null`. -/
def claimFieldsOk (j : StoryJob) : Bool :=
  (if j.status == "running" then j.claimedBy.isSome && j.claimedAt.isSome
   else true) &&
  (if j.status == "pending" || j.status == "completed" || j.status == "failed"
   then j.claimedBy.isNone else true)

/-- A direct row update as the store accepts it: the replacement row must
pass the schema `CHECK` constraints (`validStoryJob`); the RLS update
policy (`Allow update story_jobs`: `USING (true) WITH CHECK (true)`)
accepts every row, so it adds no further condition.  The row with the
matching id is replaced. -/
def updateStoryJob (js : List StoryJob) (j' : StoryJob) : List StoryJob :=
  if validStoryJob j' then js.map (fun r => if r.id = j'.id then j' else r)
  else js

/-- The row produced by inserting a job and claiming it as worker `w1`
at time 5. -/
def cClaimedRow : StoryJob :=
  applyClaim "w1" 5 (newStoryJob 1 "job-c5" "bible" "c5@example.com" none 0)

/-- The claimed row after a status-only update to `completed` that does
not clear the claim fields. -/
def cBadRow : StoryJob := { cClaimedRow with status := "completed" }

/-- Counterexample to C5: the store does not enforce the claim-field
invariant.  A sequence of store-accepted operations — insert, claim, then
a status-only update to `completed` that passes every schema constraint
and the RLS policy — yields a `completed` row whose `claimed_by` is still
set, violating the invariant. -/
theorem store_accepts_claim_fields_violation :
    execJobOps [] [JobOp.insert 1 "job-c5" "bible" "c5@example.com" none 0,
                   JobOp.claim "w1" 5] = [cClaimedRow] ∧
    validStoryJob cBadRow = true ∧
    updateStoryJob [cClaimedRow] cBadRow = [cBadRow] ∧
    cBadRow.status = "completed" ∧
    cBadRow.claimedBy = some "w1" ∧
    claimFieldsOk cBadRow = false := by
  refine ⟨by decide, by decide, by decide, rfl, rfl, by decide⟩

/-- C5 amended: the schema carries no constraint tying `claimed_by` /
`claimed_at` to `status`, so the invariant can be broken by a
store-accepted update and holds only by caller discipline; the claim
primitive itself preserves it, setting `claimed_by` and `claimed_at`
whenever it sets `running`. -/
theorem claim_preserves_claim_fields (js : List StoryJob) (w : String)
    (t : Nat) (h : ∀ j ∈ js, claimFieldsOk j = true) :
    ∀ j ∈ (claim_pending_job js w t).2, claimFieldsOk j = true := by
  unfold claim_pending_job
  cases hsel : selectOldest js with
  | none => exact h
  | some j =>
    intro r hr
    obtain ⟨r0, hr0, hfr⟩ := List.mem_map.mp hr
    by_cases h0 : r0.id = j.id
    · rw [if_pos h0] at hfr
      rw [← hfr]
      simp [claimFieldsOk, applyClaim]
    · rw [if_neg h0] at hfr
      rw [← hfr]
      exact h r0 hr0

/-- Witness for the amended C5: claiming from a table satisfying the
invariant keeps it. -/
theorem claim_preserves_claim_fields_witness :
    (∀ j ∈ [jobA], claimFieldsOk j = true) ∧
    (∀ j ∈ (claim_pending_job [jobA] "w9" 7).2, claimFieldsOk j = true) :=
  ⟨by decide, claim_preserves_claim_fields [jobA] "w9" 7 (by decide)⟩

/-! ## The `scheduled_deliveries` table -/

/-- A row of `public.scheduled_deliveries` (table migration: `id`,
`story_id`, `user_id`, `user_email`, `deliver_at`, `timezone`, `status`,
`sent_at`, `resend_email_id`, `error_message`, `retry_count`,
`created_at`, `updated_at`). -/
structure ScheduledDelivery where
  id : Nat
  storyId : Nat
  userId : Nat
  userEmail : String
  deliverAt : Nat
  timezone : String
  status : String
  sentAt : Option Nat
  resendEmailId : Option String
  errorMessage : Option String
  retryCount : Nat
  createdAt : Nat
  updatedAt : Nat
  deriving Repr, DecidableEq

/-- Insert under the constraints of the table after the
delivery-uniqueness migration: the primary key on `id` and the
`unique_story_delivery UNIQUE (story_id)` constraint refuse the insert
when a matching row already exists (the statement errors and the table
is unchanged). -/
def insertDelivery (ds : List ScheduledDelivery) (d : ScheduledDelivery) :
    List ScheduledDelivery :=
  if ds.any (fun r => r.id == d.id || r.storyId == d.storyId) then ds
  else ds ++ [d]

/-- First element with the least key; ties resolve to the earlier
element. -/
def argminBy {α : Type} (key : α → Nat) : List α → Option α
  | [] => none
  | x :: rest =>
    some ((argminBy key rest).elim x (fun b => if key x ≤ key b then x else b))

theorem argminBy_eq_none {α : Type} (key : α → Nat) {l : List α} :
    argminBy key l = none ↔ l = [] := by
  cases l with
  | nil => simp [argminBy]
  | cons a rest => simp [argminBy]

theorem argminBy_mem {α : Type} {key : α → Nat} {l : List α} {x : α}
    (h : argminBy key l = some x) : x ∈ l := by
  induction l generalizing x with
  | nil => simp [argminBy] at h
  | cons a rest ih =>
    simp only [argminBy] at h
    obtain rfl := (Option.some.inj h).symm
    cases hrest : argminBy key rest with
    | none => simp [hrest]
    | some b =>
      simp only [Option.elim_some]
      by_cases hle : key a ≤ key b
      · rw [if_pos hle]
        exact List.mem_cons_self _ _
      · rw [if_neg hle]
        exact List.mem_cons_of_mem _ (ih hrest)

theorem argminBy_min {α : Type} {key : α → Nat} {l : List α} {x : α}
    (h : argminBy key l = some x) : ∀ y ∈ l, key x ≤ key y := by
  induction l generalizing x with
  | nil => simp [argminBy] at h
  | cons a rest ih =>
    simp only [argminBy] at h
    obtain rfl := (Option.some.inj h).symm
    intro y hy
    cases hrest : argminBy key rest with
    | none =>
      have hnil : rest = [] := (argminBy_eq_none key).mp hrest
      subst hnil
      simp at hy
      subst hy
      simp [hrest]
    | some b =>
      simp only [Option.elim_some]
      have hb := ih hrest
      rcases List.mem_cons.mp hy with rfl | hy'
      · by_cases hle : key y ≤ key b
        · rw [if_pos hle]
        · rw [if_neg hle]
          exact Nat.le_of_lt (Nat.lt_of_not_le hle)
      · by_cases hle : key a ≤ key b
        · rw [if_pos hle]
          exact Nat.le_trans hle (hb y hy')
        · rw [if_neg hle]
          exact hb y hy'

/-- The selection predicate of the delivery claim:
`status = 'pending' AND deliver_at <= now` (the worker query backed by
`idx_scheduled_deliveries_pending`). -/
def dueEligible (now : Nat) (d : ScheduledDelivery) : Bool :=
  d.status == "pending" && decide (d.deliverAt ≤ now)

/-- Modelled from the spec: `ClaimDueDelivery(workerID, now)`, the atomic
claim for the Delivery table (the backend delivery worker code is not
under the sources).  It selects a due pending row — earliest `deliver_at`
first, the order of `idx_scheduled_deliveries_pending` — and transitions
it exclusively to the claiming worker by setting `status = 'sending'`;
the table records exclusivity through the status (it has no
`claimed_by` column). -/
def claimDueDelivery (ds : List ScheduledDelivery) (_w : String)
    (now : Nat) : Option ScheduledDelivery × List ScheduledDelivery :=
  match argminBy (fun d => d.deliverAt) (ds.filter (dueEligible now)) with
  | none => (none, ds)
  | some d =>
    (some d,
     ds.map (fun r => if r.id = d.id then { r with status := "sending" } else r))

/-- Run a sequence of (serialized) delivery claim calls. -/
def runDeliveryClaims (ds : List ScheduledDelivery) :
    List (String × Nat) →
    List (Option ScheduledDelivery) × List ScheduledDelivery
  | [] => ([], ds)
  | (w, t) :: rest =>
    let step := claimDueDelivery ds w t
    let tail := runDeliveryClaims step.2 rest
    (step.1 :: tail.1, tail.2)

/-- Ids of the successfully claimed deliveries. -/
def dueClaimedIds (rs : List (Option ScheduledDelivery)) : List Nat :=
  rs.filterMap (fun o => o.map ScheduledDelivery.id)

/-! ## Exclusivity of the delivery claim (C8) -/

/-- Every row carrying the id of a claimed delivery is `sending`. -/
def AllSending (i : Nat) (ds : List ScheduledDelivery) : Prop :=
  ∀ r ∈ ds, r.id = i → r.status = "sending"

theorem dueEligible_fields {now : Nat} {d : ScheduledDelivery}
    (h : dueEligible now d = true) :
    d.status = "pending" ∧ d.deliverAt ≤ now := by
  unfold dueEligible at h
  simp only [Bool.and_eq_true, beq_iff_eq, decide_eq_true_eq] at h
  exact h

theorem claimDue_success {ds ds' : List ScheduledDelivery} {w : String}
    {now : Nat} {res : ScheduledDelivery}
    (h : claimDueDelivery ds w now = (some res, ds')) :
    res.status = "pending" ∧ res.deliverAt ≤ now ∧ res ∈ ds ∧
    AllSending res.id ds' := by
  unfold claimDueDelivery at h
  cases hsel : argminBy (fun d => d.deliverAt) (ds.filter (dueEligible now)) with
  | none => rw [hsel] at h; exact absurd (congrArg Prod.fst h) (by simp)
  | some d =>
    rw [hsel] at h
    obtain ⟨h1, h2⟩ := Prod.mk.injEq .. ▸ h
    obtain rfl := (Option.some.inj h1).symm
    have hmem := argminBy_mem hsel
    have hd := List.mem_filter.mp hmem
    obtain ⟨hp, hle⟩ := dueEligible_fields hd.2
    refine ⟨hp, hle, hd.1, ?_⟩
    intro r hr hid
    subst h2
    obtain ⟨r0, hr0, hfr⟩ := List.mem_map.mp hr
    by_cases h0 : r0.id = res.id
    · rw [if_pos h0] at hfr
      subst hfr
      rfl
    · rw [if_neg h0] at hfr
      subst hfr
      exact absurd hid h0

theorem claimDue_preserves_AllSending {i : Nat}
    {ds : List ScheduledDelivery} (h : AllSending i ds) (w : String)
    (now : Nat) :
    (∀ res, (claimDueDelivery ds w now).1 = some res → res.id ≠ i) ∧
    AllSending i (claimDueDelivery ds w now).2 := by
  unfold claimDueDelivery
  cases hsel : argminBy (fun d => d.deliverAt) (ds.filter (dueEligible now)) with
  | none => exact ⟨fun res hres => by simp at hres, h⟩
  | some d =>
    have hmem := List.mem_filter.mp (argminBy_mem hsel)
    have hp := (dueEligible_fields hmem.2).1
    constructor
    · intro res hres hi
      obtain rfl := (Option.some.inj hres).symm
      have hsend := h res hmem.1 hi
      exact absurd (hp.symm.trans hsend) (by decide)
    · intro r hr hid
      obtain ⟨r0, hr0, hfr⟩ := List.mem_map.mp hr
      by_cases h0 : r0.id = d.id
      · rw [if_pos h0] at hfr; subst hfr; rfl
      · rw [if_neg h0] at hfr; subst hfr; exact h r0 hr0 hid

theorem runDeliveryClaims_not_claimed {i : Nat}
    {ds : List ScheduledDelivery} (h : AllSending i ds)
    (calls : List (String × Nat)) :
    i ∉ dueClaimedIds (runDeliveryClaims ds calls).1 := by
  induction calls generalizing ds with
  | nil => simp [runDeliveryClaims, dueClaimedIds]
  | cons c rest ih =>
    obtain ⟨w, t⟩ := c
    obtain ⟨hno, hpres⟩ := claimDue_preserves_AllSending h w t
    simp only [runDeliveryClaims, dueClaimedIds, List.filterMap_cons]
    cases hres : (claimDueDelivery ds w t).1 with
    | none => exact ih hpres
    | some res =>
      intro hmem
      simp only [Option.map_some', List.mem_cons] at hmem
      rcases hmem with heq | hmem'
      · exact hno res hres heq.symm
      · exact ih hpres hmem'

theorem runDeliveryClaims_nodup (ds : List ScheduledDelivery)
    (calls : List (String × Nat)) :
    (dueClaimedIds (runDeliveryClaims ds calls).1).Nodup := by
  induction calls generalizing ds with
  | nil => simp [runDeliveryClaims, dueClaimedIds]
  | cons c rest ih =>
    obtain ⟨w, t⟩ := c
    simp only [runDeliveryClaims, dueClaimedIds, List.filterMap_cons]
    cases hres : (claimDueDelivery ds w t).1 with
    | none => exact ih _
    | some res =>
      simp only [Option.map_some']
      refine List.nodup_cons.mpr ⟨?_, ih _⟩
      have heq : claimDueDelivery ds w t =
          (some res, (claimDueDelivery ds w t).2) := by rw [← hres]
      exact runDeliveryClaims_not_claimed (claimDue_success heq).2.2.2 rest

/-- C8: the delivery table has an atomic claim equivalent to
`claim_pending_job`: a successful `claimDueDelivery` returns a row with
`status = 'pending'` and `deliver_at ≤ now` from the table and
transitions it exclusively to the claiming worker (`status = 'sending'`),
and any sequence of serialized claim calls — the model of concurrent
callers — never returns the same delivery row twice. -/
theorem claimDueDelivery_exclusive (ds : List ScheduledDelivery) :
    (∀ w now res ds', claimDueDelivery ds w now = (some res, ds') →
      res.status = "pending" ∧ res.deliverAt ≤ now ∧ res ∈ ds ∧
      (∀ r ∈ ds', r.id = res.id → r.status = "sending")) ∧
    (∀ calls, (dueClaimedIds (runDeliveryClaims ds calls).1).Nodup) :=
  ⟨fun _w _now _res _ds' h => claimDue_success h,
   fun calls => runDeliveryClaims_nodup ds calls⟩

/-- A due pending delivery row. -/
def delivA : ScheduledDelivery :=
  { id := 11, storyId := 101, userId := 7, userEmail := "u@example.com",
    deliverAt := 10, timezone := "UTC", status := "pending", sentAt := none,
    resendEmailId := none, errorMessage := none, retryCount := 0,
    createdAt := 1, updatedAt := 1 }

/-- `delivA` once claimed. -/
def delivASending : ScheduledDelivery := { delivA with status := "sending" }

/-- Witness for C8: claiming the one due delivery at time 20 returns it,
marks it `sending`, and two successive claim calls never return the same
row. -/
theorem claimDueDelivery_exclusive_witness :
    (delivA.status = "pending" ∧ delivA.deliverAt ≤ 20 ∧ delivA ∈ [delivA] ∧
      (∀ r ∈ [delivASending], r.id = delivA.id → r.status = "sending")) ∧
    (dueClaimedIds
      (runDeliveryClaims [delivA] [("w1", 20), ("w2", 21)]).1).Nodup :=
  ⟨(claimDueDelivery_exclusive [delivA]).1 "w1" 20 delivA [delivASending]
     (by decide),
   (claimDueDelivery_exclusive [delivA]).2 [("w1", 20), ("w2", 21)]⟩

/-! ## Delivery store operations (C3, C9) -/

/-- Modelled from the spec: the delivery worker recording a successful
send: `status = 'sent'`, `sent_at = now`, the provider receipt id. -/
def sentTransform (i t : Nat) (receipt : String)
    (r : ScheduledDelivery) : ScheduledDelivery :=
  if r.id = i ∧ r.status = "sending" then
    { r with status := "sent", sentAt := some t,
             resendEmailId := some receipt }
  else r

/-- Modelled from the spec: the bounded-retry policy applied to a send
failure: increment `retry_count`; below the limit return the row to
`pending`, otherwise mark it permanently `failed`. -/
def failDeliveryTransform (i : Nat) (msg : String)
    (r : ScheduledDelivery) : ScheduledDelivery :=
  if r.id = i ∧ r.status = "sending" then
    (if r.retryCount + 1 < 3 then
      { r with status := "pending", retryCount := r.retryCount + 1,
               errorMessage := some msg }
     else
      { r with status := "failed", retryCount := r.retryCount + 1,
               errorMessage := some msg })
  else r

/-- Modelled from the spec: the reaper treating a stale `sending` row as
a retryable failure. -/
def reapDeliveryTransform (t timeout : Nat)
    (r : ScheduledDelivery) : ScheduledDelivery :=
  if r.status = "sending" ∧ r.updatedAt + timeout < t then
    (if r.retryCount + 1 < 3 then
      { r with status := "pending", retryCount := r.retryCount + 1,
               errorMessage := some "stale claim reclaimed" }
     else
      { r with status := "failed", retryCount := r.retryCount + 1,
               errorMessage := some "stale claim reclaimed" })
  else r

/-- The operations that touch the `scheduled_deliveries` table. -/
inductive DeliveryOp where
  | insert (d : ScheduledDelivery)
  | claimDue (w : String) (t : Nat)
  | markSent (i t : Nat) (receipt : String)
  | failDelivery (i : Nat) (msg : String)
  | reapDeliveries (t timeout : Nat)

def deliveryStep (ds : List ScheduledDelivery) :
    DeliveryOp → Option ScheduledDelivery × List ScheduledDelivery
  | .insert d => (none, insertDelivery ds d)
  | .claimDue w t => claimDueDelivery ds w t
  | .markSent i t receipt => (none, ds.map (sentTransform i t receipt))
  | .failDelivery i msg => (none, ds.map (failDeliveryTransform i msg))
  | .reapDeliveries t timeout => (none, ds.map (reapDeliveryTransform t timeout))

def execDeliveryOps (ds : List ScheduledDelivery) :
    List DeliveryOp → List ScheduledDelivery
  | [] => ds
  | op :: rest => execDeliveryOps (deliveryStep ds op).2 rest

/-- At most one delivery row per story: the `story_id`s are pairwise
distinct (the invariant established by `unique_story_delivery`). -/
def AtMostOnePerStory (ds : List ScheduledDelivery) : Prop :=
  (ds.map (fun d => d.storyId)).Nodup

theorem sentTransform_story (i t : Nat) (receipt : String)
    (r : ScheduledDelivery) :
    (sentTransform i t receipt r).storyId = r.storyId := by
  unfold sentTransform
  split <;> rfl

theorem failDeliveryTransform_story (i : Nat) (msg : String)
    (r : ScheduledDelivery) :
    (failDeliveryTransform i msg r).storyId = r.storyId := by
  unfold failDeliveryTransform
  split
  · split <;> rfl
  · rfl

theorem reapDeliveryTransform_story (t timeout : Nat)
    (r : ScheduledDelivery) :
    (reapDeliveryTransform t timeout r).storyId = r.storyId := by
  unfold reapDeliveryTransform
  split
  · split <;> rfl
  · rfl

theorem map_story_of_preserves (f : ScheduledDelivery → ScheduledDelivery)
    (hf : ∀ r, (f r).storyId = r.storyId) (ds : List ScheduledDelivery) :
    (ds.map f).map (fun d => d.storyId) = ds.map (fun d => d.storyId) := by
  rw [List.map_map]
  exact List.map_congr_left (fun r _ => hf r)

theorem deliveryStep_AtMostOne (ds : List ScheduledDelivery)
    (op : DeliveryOp) (h : AtMostOnePerStory ds) :
    AtMostOnePerStory (deliveryStep ds op).2 := by
  cases op with
  | insert d =>
    show AtMostOnePerStory (insertDelivery ds d)
    unfold insertDelivery
    by_cases hg : (ds.any fun r => r.id == d.id || r.storyId == d.storyId) = true
    · rw [if_pos hg]
      exact h
    · rw [if_neg hg]
      unfold AtMostOnePerStory
      rw [List.map_append, List.nodup_append]
      refine ⟨h, List.nodup_singleton _, ?_⟩
      intro a ha hb
      obtain ⟨r, hr, hid⟩ := List.mem_map.mp ha
      simp only [List.map_cons, List.map_nil, List.mem_singleton] at hb
      apply hg
      rw [List.any_eq_true]
      refine ⟨r, hr, ?_⟩
      have : r.storyId = d.storyId := hid.trans hb
      simp [this]
  | claimDue w t =>
    show AtMostOnePerStory (claimDueDelivery ds w t).2
    unfold claimDueDelivery
    cases argminBy (fun d => d.deliverAt) (ds.filter (dueEligible t)) with
    | none => exact h
    | some d =>
      unfold AtMostOnePerStory
      rw [map_story_of_preserves _ (fun r => by split <;> rfl) ds]
      exact h
  | markSent i t receipt =>
    show AtMostOnePerStory (ds.map (sentTransform i t receipt))
    unfold AtMostOnePerStory
    rw [map_story_of_preserves _ (sentTransform_story i t receipt) ds]
    exact h
  | failDelivery i msg =>
    show AtMostOnePerStory (ds.map (failDeliveryTransform i msg))
    unfold AtMostOnePerStory
    rw [map_story_of_preserves _ (failDeliveryTransform_story i msg) ds]
    exact h
  | reapDeliveries t timeout =>
    show AtMostOnePerStory (ds.map (reapDeliveryTransform t timeout))
    unfold AtMostOnePerStory
    rw [map_story_of_preserves _ (reapDeliveryTransform_story t timeout) ds]
    exact h

/-- C3: from a table where each story has at most one delivery row — the
state `unique_story_delivery` establishes — no sequence of store
operations ever creates a second row for a story; in particular a
repeated creation attempt for the same story (a replayed generation
step) is refused outright and leaves the table unchanged. -/
theorem delivery_unique_per_story (ds : List ScheduledDelivery)
    (ops : List DeliveryOp) (h : AtMostOnePerStory ds) :
    AtMostOnePerStory (execDeliveryOps ds ops) ∧
    ∀ d : ScheduledDelivery, (∃ d0 ∈ ds, d0.storyId = d.storyId) →
      deliveryStep ds (DeliveryOp.insert d) = (none, ds) := by
  constructor
  · induction ops generalizing ds with
    | nil => exact h
    | cons op rest ih => exact ih _ (deliveryStep_AtMostOne ds op h)
  · intro d hd
    obtain ⟨d0, hd0, hs⟩ := hd
    show (none, insertDelivery ds d) = (none, ds)
    unfold insertDelivery
    rw [if_pos]
    rw [List.any_eq_true]
    refine ⟨d0, hd0, ?_⟩
    simp [hs]

/-- A second delivery attempt for the same story as `delivA`. -/
def delivDup : ScheduledDelivery :=
  { delivA with id := 12, deliverAt := 99, createdAt := 2 }

/-- Witness for C3: inserting a duplicate-story delivery is refused and
uniqueness is kept. -/
theorem delivery_unique_per_story_witness :
    AtMostOnePerStory [delivA] ∧
    (AtMostOnePerStory (execDeliveryOps [delivA] [DeliveryOp.insert delivDup]) ∧
     ∀ d : ScheduledDelivery, (∃ d0 ∈ [delivA], d0.storyId = d.storyId) →
       deliveryStep [delivA] (DeliveryOp.insert d) = (none, [delivA])) :=
  ⟨by unfold AtMostOnePerStory; decide,
   delivery_unique_per_story [delivA] [DeliveryOp.insert delivDup]
     (by unfold AtMostOnePerStory; decide)⟩

/-! ## `deliver_at` immutability (C9) -/

/-- The `deliver_at` of the row with the given id. -/
def deliverAtOf (ds : List ScheduledDelivery) (i : Nat) : Option Nat :=
  (ds.find? (fun d => d.id == i)).map (fun d => d.deliverAt)

theorem deliverAtOf_map (f : ScheduledDelivery → ScheduledDelivery)
    (hid : ∀ r, (f r).id = r.id)
    (hda : ∀ r, (f r).deliverAt = r.deliverAt)
    (ds : List ScheduledDelivery) (i : Nat) :
    deliverAtOf (ds.map f) i = deliverAtOf ds i := by
  unfold deliverAtOf
  induction ds with
  | nil => rfl
  | cons a rest ih =>
    simp only [List.map_cons]
    by_cases hp : (a.id == i) = true
    · rw [@List.find?_cons_of_pos _ (fun d => d.id == i) (f a) (rest.map f)
            (by show ((f a).id == i) = true; rw [hid a]; exact hp),
          @List.find?_cons_of_pos _ (fun d => d.id == i) a rest hp]
      simp [hda a]
    · rw [@List.find?_cons_of_neg _ (fun d => d.id == i) (f a) (rest.map f)
            (by show ¬((f a).id == i) = true; rw [hid a]; exact hp),
          @List.find?_cons_of_neg _ (fun d => d.id == i) a rest hp]
      exact ih

theorem deliverAtOf_append {ds : List ScheduledDelivery}
    {i t : Nat} (h : deliverAtOf ds i = some t)
    (extra : List ScheduledDelivery) :
    deliverAtOf (ds ++ extra) i = some t := by
  unfold deliverAtOf at h ⊢
  cases hf : ds.find? (fun d => d.id == i) with
  | none => rw [hf] at h; simp at h
  | some d =>
    rw [hf] at h
    rw [List.find?_append, hf]
    exact h

theorem deliveryStep_deliverAt (ds : List ScheduledDelivery)
    (op : DeliveryOp) {i t : Nat} (h : deliverAtOf ds i = some t) :
    deliverAtOf (deliveryStep ds op).2 i = some t := by
  cases op with
  | insert d =>
    show deliverAtOf (insertDelivery ds d) i = some t
    unfold insertDelivery
    split
    · exact h
    · exact deliverAtOf_append h [d]
  | claimDue w t' =>
    show deliverAtOf (claimDueDelivery ds w t').2 i = some t
    unfold claimDueDelivery
    cases argminBy (fun d => d.deliverAt) (ds.filter (dueEligible t')) with
    | none => exact h
    | some d =>
      rw [deliverAtOf_map _ (fun r => by split <;> rfl)
            (fun r => by split <;> rfl) ds i]
      exact h
  | markSent i' t' receipt =>
    show deliverAtOf (ds.map (sentTransform i' t' receipt)) i = some t
    rw [deliverAtOf_map _ (fun r => by unfold sentTransform; split <;> rfl)
          (fun r => by unfold sentTransform; split <;> rfl) ds i]
    exact h
  | failDelivery i' msg =>
    show deliverAtOf (ds.map (failDeliveryTransform i' msg)) i = some t
    rw [deliverAtOf_map _
          (fun r => by unfold failDeliveryTransform
                       split
                       · split <;> rfl
                       · rfl)
          (fun r => by unfold failDeliveryTransform
                       split
                       · split <;> rfl
                       · rfl) ds i]
    exact h
  | reapDeliveries t' timeout =>
    show deliverAtOf (ds.map (reapDeliveryTransform t' timeout)) i = some t
    rw [deliverAtOf_map _
          (fun r => by unfold reapDeliveryTransform
                       split
                       · split <;> rfl
                       · rfl)
          (fun r => by unfold reapDeliveryTransform
                       split
                       · split <;> rfl
                       · rfl) ds i]
    exact h

/-- C9: once a delivery row exists, its `deliver_at` never changes: no
store operation — claim, send success, send failure/retry, reaper
recovery, or further creation attempts — touches it. -/
theorem deliver_at_immutable (ds : List ScheduledDelivery)
    (ops : List DeliveryOp) (i t : Nat) (h : deliverAtOf ds i = some t) :
    deliverAtOf (execDeliveryOps ds ops) i = some t := by
  induction ops generalizing ds with
  | nil => exact h
  | cons op rest ih => exact ih _ (deliveryStep_deliverAt ds op h)

/-- A full life cycle of `delivA`: claim, failed send, retry claim,
successful send, a reap pass, and a duplicate creation attempt. -/
def delivLifecycle : List DeliveryOp :=
  [DeliveryOp.claimDue "w1" 20, DeliveryOp.failDelivery 11 "smtp timeout",
   DeliveryOp.claimDue "w2" 30, DeliveryOp.markSent 11 31 "receipt-1",
   DeliveryOp.reapDeliveries 1000 60, DeliveryOp.insert delivDup]

/-- Witness for C9: `delivA.deliver_at = 10` survives the whole life
cycle unchanged. -/
theorem deliver_at_immutable_witness :
    deliverAtOf [delivA] 11 = some 10 ∧
    deliverAtOf (execDeliveryOps [delivA] delivLifecycle) 11 = some 10 :=
  ⟨by decide, deliver_at_immutable [delivA] delivLifecycle 11 10 (by decide)⟩

/-! ## The dedup step of the delivery-uniqueness migration (C10) -/

/-- The `DISTINCT ON (story_id) ... ORDER BY story_id, created_at ASC`
pick for one story: the earliest-created row among the story's rows. -/
def survivorFor (ds : List ScheduledDelivery) (sid : Nat) :
    Option ScheduledDelivery :=
  argminBy (fun d => d.createdAt) (ds.filter (fun d => d.storyId == sid))

/-- The id set the migration's inner `SELECT` keeps: one id per distinct
`story_id`, that of the story's earliest-created row. -/
def keptIds (ds : List ScheduledDelivery) : List Nat :=
  ((ds.map (fun d => d.storyId)).dedup).filterMap
    (fun sid => (survivorFor ds sid).map (fun d => d.id))

/-- The migration's `DELETE FROM scheduled_deliveries WHERE id NOT IN
(SELECT DISTINCT ON (story_id) id ... ORDER BY story_id, created_at ASC)`. -/
def dedupDeliveries (ds : List ScheduledDelivery) : List ScheduledDelivery :=
  ds.filter (fun d => (keptIds ds).contains d.id)

theorem survivorFor_mem {ds : List ScheduledDelivery} {sid : Nat}
    {s : ScheduledDelivery} (h : survivorFor ds sid = some s) :
    s ∈ ds ∧ s.storyId = sid := by
  have hm := argminBy_mem h
  have hf := List.mem_filter.mp hm
  exact ⟨hf.1, by simpa using hf.2⟩

theorem survivorFor_min {ds : List ScheduledDelivery} {sid : Nat}
    {s : ScheduledDelivery} (h : survivorFor ds sid = some s) :
    ∀ d ∈ ds, d.storyId = sid → s.createdAt ≤ d.createdAt := by
  intro d hd hds
  exact argminBy_min h d (List.mem_filter.mpr ⟨hd, by simp [hds]⟩)

theorem survivorFor_some {ds : List ScheduledDelivery} {sid : Nat}
    (h : ∃ d ∈ ds, d.storyId = sid) :
    ∃ s, survivorFor ds sid = some s := by
  obtain ⟨d, hd, hds⟩ := h
  cases hs : survivorFor ds sid with
  | some s => exact ⟨s, rfl⟩
  | none =>
    exfalso
    unfold survivorFor at hs
    have hnil := (argminBy_eq_none (fun d : ScheduledDelivery => d.createdAt)).mp hs
    have : d ∈ ds.filter (fun d => d.storyId == sid) :=
      List.mem_filter.mpr ⟨hd, by simp [hds]⟩
    rw [hnil] at this
    exact absurd this (List.not_mem_nil d)

theorem filter_eq_singleton {l : List ScheduledDelivery}
    {p : ScheduledDelivery → Bool} {s : ScheduledDelivery}
    (hnd : l.Nodup) (hs : s ∈ l) (hps : p s = true)
    (hp : ∀ d ∈ l, p d = true → d = s) :
    l.filter p = [s] := by
  induction l with
  | nil => cases hs
  | cons a rest ih =>
    have hnd' := List.nodup_cons.mp hnd
    rcases List.mem_cons.mp hs with rfl | hmem
    · rw [List.filter_cons_of_pos hps]
      have hnil : rest.filter p = [] := by
        rw [List.filter_eq_nil_iff]
        intro d hd hpd
        have hds := hp d (List.mem_cons_of_mem _ hd) hpd
        exact hnd'.1 (hds ▸ hd)
      rw [hnil]
    · have hne : a ≠ s := fun he => hnd'.1 (he ▸ hmem)
      have hpa : ¬(p a = true) := fun hpa =>
        hne (hp a (List.mem_cons_self _ _) hpa)
      rw [List.filter_cons_of_neg hpa]
      exact ih hnd'.2 hmem (fun d hd => hp d (List.mem_cons_of_mem _ hd))

/-- C10: running the dedup `DELETE` on a table with several rows for one
`story_id` leaves, for each story present, exactly one row — one whose
`created_at` is least among the story's rows (ties broken by table
order, as `DISTINCT ON` may). -/
theorem dedup_keeps_earliest (ds : List ScheduledDelivery)
    (hnd : (ds.map (fun d => d.id)).Nodup) :
    ∀ sid : Nat, (∃ d ∈ ds, d.storyId = sid) →
      ∃ s ∈ ds, s.storyId = sid ∧
        (∀ d ∈ ds, d.storyId = sid → s.createdAt ≤ d.createdAt) ∧
        (dedupDeliveries ds).filter (fun d => d.storyId == sid) = [s] := by
  intro sid hex
  obtain ⟨s, hsurv⟩ := survivorFor_some hex
  obtain ⟨hsmem, hssid⟩ := survivorFor_mem hsurv
  refine ⟨s, hsmem, hssid, survivorFor_min hsurv, ?_⟩
  unfold dedupDeliveries
  rw [List.filter_filter]
  have hkept : s.id ∈ keptIds ds := by
    unfold keptIds
    rw [List.mem_filterMap]
    refine ⟨sid, ?_, ?_⟩
    · exact List.mem_dedup.mpr (List.mem_map.mpr ⟨s, hsmem, hssid⟩)
    · rw [hsurv]
      rfl
  apply filter_eq_singleton (List.Nodup.of_map _ hnd) hsmem
  · simp only [Bool.and_eq_true, beq_iff_eq]
    exact ⟨hssid, List.elem_iff.mpr hkept⟩
  · intro d hd hpd
    simp only [Bool.and_eq_true, beq_iff_eq] at hpd
    obtain ⟨hdsid, hdc⟩ := hpd
    have hdk : d.id ∈ keptIds ds := List.elem_iff.mp hdc
    unfold keptIds at hdk
    rw [List.mem_filterMap] at hdk
    obtain ⟨sid', _hsid', hmap⟩ := hdk
    rw [Option.map_eq_some'] at hmap
    obtain ⟨s', hs', hsid'⟩ := hmap
    obtain ⟨hs'mem, hs'sid⟩ := survivorFor_mem hs'
    have hs'd : s' = d := List.inj_on_of_nodup_map hnd hs'mem hd hsid'
    have hsid_eq : sid' = sid := by rw [← hs'sid, hs'd, hdsid]
    rw [hsid_eq] at hs'
    have : s' = s := Option.some.inj ((hs'.symm).trans hsurv)
    rw [← hs'd, this]

/-- Two delivery rows for story 300 (the later-created one first) and one
for story 301. -/
def dupRow1 : ScheduledDelivery :=
  { delivA with id := 21, storyId := 300, createdAt := 5 }

def dupRow2 : ScheduledDelivery :=
  { delivA with id := 22, storyId := 300, createdAt := 3 }

def dupRow3 : ScheduledDelivery :=
  { delivA with id := 23, storyId := 301, createdAt := 9 }

/-- Witness for C10: on a table with two rows for story 300, the dedup
keeps exactly one row for story 300, an earliest-created one. -/
theorem dedup_keeps_earliest_witness :
    (([dupRow1, dupRow2, dupRow3].map (fun d => d.id)).Nodup ∧
     (∃ d ∈ [dupRow1, dupRow2, dupRow3], d.storyId = 300)) ∧
    (∃ s ∈ [dupRow1, dupRow2, dupRow3], s.storyId = 300 ∧
      (∀ d ∈ [dupRow1, dupRow2, dupRow3],
        d.storyId = 300 → s.createdAt ≤ d.createdAt) ∧
      (dedupDeliveries [dupRow1, dupRow2, dupRow3]).filter
        (fun d => d.storyId == 300) = [s]) :=
  ⟨⟨by decide, ⟨dupRow1, by decide, by decide⟩⟩,
   dedup_keeps_earliest [dupRow1, dupRow2, dupRow3] (by decide) 300
     ⟨dupRow1, by decide, by decide⟩⟩

end FixionMail
